import Mathlib

/-!
Verification of the name-table parser (src/name.rs) of a TrueType font
parsing library.  Bytes are modelled as natural numbers taken modulo 256,
byte buffers as lists.  Fallible Rust code returns Option or Except; a Rust
panic is modelled as the outer `none` of an Option-valued function.

The cursor reader (Stream), the raw fixed-offset record accessors
(raw::NameRecord), the lazy u16 array used for UTF-16 collection and the
standard-library UTF-16 validation are not part of the given sources; they
are modelled from the specification (marked in their doc comments).
Everything else is translated directly from src/name.rs.
-/

namespace Ttf

/-- Big-endian 16-bit value from two bytes (each taken mod 256, as u8). -/
def be16 (b0 b1 : Nat) : Nat :=
  (b0 % 256) * 256 + (b1 % 256)

/-- Big-endian u16 read at offset i of a byte buffer. -/
def readU16At (d : List Nat) (i : Nat) : Nat :=
  be16 (d.getD i 0) (d.getD (i + 1) 0)

/-- u16::checked_mul: the product when it fits 16 bits, otherwise none. -/
def checkedMulU16 (a b : Nat) : Option Nat :=
  if a * b < 65536 then some (a * b) else none

/-- Modelled from the spec: the sequential, bounds-checked Cursor Reader over
a borrowed byte slice.  `read`/`read_bytes`/`tail` fail rather than read past
the end; `skip`/`advance` move the position without inspecting bytes (their
uses in src/name.rs are not fallible). -/
structure Stream where
  data : List Nat
  offset : Nat
deriving DecidableEq

def Stream.new (data : List Nat) : Stream :=
  ⟨data, 0⟩

/-- Modelled from the spec: read a big-endian u16 and advance by 2;
fails when fewer than 2 bytes remain. -/
def Stream.read_u16 (s : Stream) : Option (Nat × Stream) :=
  if s.offset + 2 ≤ s.data.length then
    some (readU16At s.data s.offset, ⟨s.data, s.offset + 2⟩)
  else
    none

/-- Modelled from the spec: skip one u16 without inspecting bytes. -/
def Stream.skip_u16 (s : Stream) : Stream :=
  ⟨s.data, s.offset + 2⟩

/-- Modelled from the spec: move the cursor forward n bytes. -/
def Stream.advance (s : Stream) (n : Nat) : Stream :=
  ⟨s.data, s.offset + n⟩

/-- Modelled from the spec: a borrowed sub-slice of length n at the current
position; fails when n exceeds the remaining bytes. -/
def Stream.read_bytes (s : Stream) (n : Nat) : Option (List Nat × Stream) :=
  if s.offset + n ≤ s.data.length then
    some ((s.data.drop s.offset).take n, ⟨s.data, s.offset + n⟩)
  else
    none

/-- Modelled from the spec: the remaining unread sub-slice; fails when the
cursor is already past the end. -/
def Stream.tail (s : Stream) : Option (List Nat) :=
  if s.offset ≤ s.data.length then some (s.data.drop s.offset) else none

/-- Modelled from the spec: raw::NameRecord, a 12-byte name record with
fixed-offset big-endian field accessors. -/
structure NameRecord where
  data : List Nat
deriving DecidableEq

def NameRecord.SIZE : Nat := 12

def NameRecord.new (data : List Nat) : NameRecord :=
  ⟨data⟩

def NameRecord.platform_id (r : NameRecord) : Nat := readU16At r.data 0

def NameRecord.encoding_id (r : NameRecord) : Nat := readU16At r.data 2

def NameRecord.language_id (r : NameRecord) : Nat := readU16At r.data 4

def NameRecord.name_id (r : NameRecord) : Nat := readU16At r.data 6

/-- String-storage offset field (byte offset 8 of the record). -/
def NameRecord.offset (r : NameRecord) : Nat := readU16At r.data 8

/-- String length field (byte offset 10 of the record). -/
def NameRecord.length (r : NameRecord) : Nat := readU16At r.data 10

/-- name_id constants of src/name.rs used by the resolution logic. -/
def name_id.FAMILY : Nat := 1

def name_id.POST_SCRIPT_NAME : Nat := 6

def name_id.TYPOGRAPHIC_FAMILY : Nat := 16

/-- PlatformId of src/name.rs. -/
inductive PlatformId where
  | Unicode
  | Macintosh
  | Iso
  | Windows
  | Custom
deriving DecidableEq

/-- PlatformId::from_u16 of src/name.rs. -/
def PlatformId.from_u16 (n : Nat) : Option PlatformId :=
  match n with
  | 0 => some PlatformId.Unicode
  | 1 => some PlatformId.Macintosh
  | 2 => some PlatformId.Iso
  | 3 => some PlatformId.Windows
  | 4 => some PlatformId.Custom
  | _ => none

def WINDOWS_UNICODE_BMP_ENCODING_ID : Nat := 1

/-- is_unicode_encoding of src/name.rs. -/
def is_unicode_encoding (platform_id : PlatformId) (encoding_id : Nat) : Bool :=
  match platform_id with
  | PlatformId.Unicode => true
  | PlatformId.Windows => encoding_id == WINDOWS_UNICODE_BMP_ENCODING_ID
  | _ => false

/-- Name of src/name.rs: a raw record plus the borrowed string storage. -/
structure Name where
  data : NameRecord
  strings : List Nat
deriving DecidableEq

def Name.platform_id (n : Name) : Option PlatformId :=
  PlatformId.from_u16 n.data.platform_id

def Name.encoding_id (n : Name) : Nat := n.data.encoding_id

def Name.language_id (n : Name) : Nat := n.data.language_id

def Name.name_id (n : Name) : Nat := n.data.name_id

/-- Name::name of src/name.rs: strings.get(offset..offset+length),
or the empty slice when the range is out of bounds. -/
def Name.name (n : Name) : List Nat :=
  if n.data.offset + n.data.length ≤ n.strings.length then
    (n.strings.drop n.data.offset).take n.data.length
  else
    []

/-- Name::is_unicode of src/name.rs.  The source unwraps
self.platform_id(); the panic on an unrecognized platform ID is modelled
as `none`, a recognized platform ID yields `some` of the test. -/
def Name.is_unicode (n : Name) : Option Bool :=
  (n.platform_id).map (fun p => is_unicode_encoding p n.encoding_id)

/-- Modelled from the spec: collecting the name bytes into UTF-16 code
units through a lazy fixed-stride view of record width 2, big-endian;
a trailing odd byte is ignored (count = len / 2). -/
def collectU16BE : List Nat → List Nat
  | b0 :: b1 :: rest => be16 b0 b1 :: collectU16BE rest
  | _ => []

/-- Modelled from the spec: standard UTF-16 validation (String::from_utf16).
A high surrogate must be followed by a low surrogate, a lone low surrogate
is invalid; on success the list of decoded scalar values is returned and no
replacement character is ever substituted. -/
def utf16Decode : List Nat → Option (List Nat)
  | [] => some []
  | [u] => if u < 0xD800 || 0xE000 ≤ u then some [u] else none
  | u :: v :: rest =>
    if u < 0xD800 || 0xE000 ≤ u then
      (utf16Decode (v :: rest)).map (fun cs => u :: cs)
    else if u < 0xDC00 then
      if 0xDC00 ≤ v && v < 0xE000 then
        (utf16Decode rest).map
          (fun cs => (0x10000 + (u - 0xD800) * 0x400 + (v - 0xDC00)) :: cs)
      else none
    else none

/-- A Unicode scalar value: a code point that is not a surrogate and is at
most 0x10FFFF. -/
def isScalarValue (c : Nat) : Bool :=
  decide (c < 0xD800) || (decide (0xE000 ≤ c) && decide (c ≤ 0x10FFFF))

/-- UTF-16 encoding of one scalar value. -/
def utf16EncodeChar (c : Nat) : List Nat :=
  if c < 0x10000 then [c]
  else [0xD800 + (c - 0x10000) / 0x400, 0xDC00 + (c - 0x10000) % 0x400]

/-- UTF-16 encoding of a sequence of scalar values. -/
def utf16Encode : List Nat → List Nat
  | [] => []
  | c :: cs => utf16EncodeChar c ++ utf16Encode cs

/-- A code-unit sequence is valid UTF-16 when it is the encoding of some
sequence of scalar values. -/
def IsValidUtf16 (us : List Nat) : Prop :=
  ∃ cs, (∀ c ∈ cs, isScalarValue c = true) ∧ utf16Encode cs = us

/-- Name::name_from_utf16_be of src/name.rs: collect the name bytes as
big-endian u16 units and validate them as UTF-16.  The decoded string is
represented as its list of scalar values. -/
def Name.name_from_utf16_be (n : Name) : Option (List Nat) :=
  utf16Decode (collectU16BE n.name)

/-- Name::name_utf8 of src/name.rs.  The outer Option models the
is_unicode unwrap panic; the inner Option is the function's result. -/
def Name.name_utf8 (n : Name) : Option (Option (List Nat)) :=
  (n.is_unicode).map (fun b => if b then n.name_from_utf16_be else none)

/-- Names of src/name.rs: the record region, the string storage and the
iterator state (index, total, both u16 in the source). -/
structure Names where
  names : List Nat
  storage : List Nat
  index : Nat
  total : Nat
deriving DecidableEq

/-- Names::new of src/name.rs; the cast of names.len() / 12 to u16 is the
mod 65536. -/
def Names.new (names storage : List Nat) : Names :=
  ⟨names, storage, 0, (names.length / NameRecord.SIZE) % 65536⟩

/-- Names::nth of src/name.rs: the record at the absolute byte range
[12n, 12n+12) of the record region.  The body reads neither index nor
total and writes nothing; the returned second component is the unchanged
iterator state. -/
def Names.nth (it : Names) (n : Nat) : Option Name × Names :=
  if NameRecord.SIZE * n + NameRecord.SIZE ≤ it.names.length then
    (some ⟨NameRecord.new ((it.names.drop (NameRecord.SIZE * n)).take NameRecord.SIZE),
       it.storage⟩, it)
  else
    (none, it)

/-- Names::next of src/name.rs: while index < total, increment index and
return nth (index - 1). -/
def Names.next (it : Names) : Option Name × Names :=
  if it.index < it.total then
    Names.nth ⟨it.names, it.storage, it.index + 1, it.total⟩ it.index
  else
    (none, it)

/-- Iterating a Names to its end, with explicit fuel so that the recursion
is structural; total - index steps always suffice. -/
def Names.toListAux : Nat → Names → List Name
  | 0, _ => []
  | fuel + 1, it =>
    match it.next with
    | (none, _) => []
    | (some n, it2) => n :: Names.toListAux fuel it2

/-- The sequence of records a for-loop over the iterator observes. -/
def Names.toList (it : Names) : List Name :=
  Names.toListAux (it.total - it.index) it

inductive TableName where
  | Naming
deriving DecidableEq

/-- The error kinds src/name.rs constructs, plus the cursor reader's
out-of-bounds error from the spec. -/
inductive Error where
  | TableMissing : TableName → Error
  | NotATrueType : Error
  | ReadOutOfBounds : Error
deriving DecidableEq

/-- The font view, restricted to the table the name parser reads: the raw
bytes of the name table when it is present. -/
structure Font where
  name : Option (List Nat)
deriving DecidableEq

def LANG_TAG_RECORD_SIZE : Nat := 4

/-- Font::_names of src/name.rs: parse the name table header, dispatch on
the format, skip language-tag records (format 1, with checked
multiplication), slice out the record region and hand the remainder over
as string storage. -/
def Font._names (f : Font) : Except Error Names :=
  match f.name with
  | none => Except.error (Error.TableMissing TableName.Naming)
  | some data =>
    match (Stream.new data).read_u16 with
    | none => Except.error Error.ReadOutOfBounds
    | some (format, s1) =>
      match s1.read_u16 with
      | none => Except.error Error.ReadOutOfBounds
      | some (count, s2) =>
        if format = 0 then
          match (s2.skip_u16).read_bytes (NameRecord.SIZE * count) with
          | none => Except.error Error.ReadOutOfBounds
          | some (names, s4) =>
            match s4.tail with
            | none => Except.error Error.ReadOutOfBounds
            | some storage => Except.ok (Names.new names storage)
        else if format = 1 then
          match (s2.skip_u16).read_u16 with
          | none => Except.error Error.ReadOutOfBounds
          | some (lang_tag_count, s4) =>
            match checkedMulU16 lang_tag_count LANG_TAG_RECORD_SIZE with
            | none => Except.error Error.NotATrueType
            | some lang_tag_len =>
              match (s4.advance lang_tag_len).read_bytes (NameRecord.SIZE * count) with
              | none => Except.error Error.ReadOutOfBounds
              | some (names, s6) =>
                match s6.tail with
                | none => Except.error Error.ReadOutOfBounds
                | some storage => Except.ok (Names.new names storage)
        else
          Except.error Error.NotATrueType

/-- Font::names of src/name.rs: every internal failure is replaced by the
empty iterator. -/
def Font.names (f : Font) : Names :=
  match f._names with
  | Except.ok v => v
  | Except.error _ => ⟨[], [], 0, 0⟩

/-- The loop body of Font::family_name of src/name.rs over the records the
iterator yields, carrying the enumeration index and the candidate.  The
outer Option models the is_unicode unwrap panic; is_unicode is evaluated
only when the name-id comparison before it succeeds (Rust &&
short-circuits). -/
def familyNameLoop : List Name → Nat → Option Nat → Option (Option Nat)
  | [], _, idx => some idx
  | r :: rest, i, idx =>
    if r.name_id = name_id.TYPOGRAPHIC_FAMILY then
      match r.is_unicode with
      | none => none
      | some true => some (some i)
      | some false => familyNameLoop rest (i + 1) idx
    else if r.name_id = name_id.FAMILY then
      match r.is_unicode with
      | none => none
      | some true => familyNameLoop rest (i + 1) (some i)
      | some false => familyNameLoop rest (i + 1) idx
    else
      familyNameLoop rest (i + 1) idx

/-- Font::family_name of src/name.rs: scan the records for a candidate
(Typographic Family stops the scan, Family does not), then fetch the
candidate through nth on the still-unconsumed copy of the iterator and
decode it.  The outer Option models the unwrap panic inside the scan. -/
def Font.family_name (f : Font) : Option (Option (List Nat)) :=
  match familyNameLoop (f.names).toList 0 none with
  | none => none
  | some none => some none
  | some (some i) =>
    some (match ((f.names).nth i).1 with
          | none => none
          | some nm => nm.name_from_utf16_be)

/-- The find of Font::post_script_name of src/name.rs: the first record
with name ID 6 passing the is_unicode test; the outer Option models the
unwrap panic (is_unicode is only evaluated after the name-id test). -/
def postScriptFind : List Name → Option (Option Name)
  | [] => some none
  | r :: rest =>
    if r.name_id = name_id.POST_SCRIPT_NAME then
      match r.is_unicode with
      | none => none
      | some true => some (some r)
      | some false => postScriptFind rest
    else
      postScriptFind rest

/-- Font::post_script_name of src/name.rs. -/
def Font.post_script_name (f : Font) : Option (Option (List Nat)) :=
  match postScriptFind (f.names).toList with
  | none => none
  | some none => some none
  | some (some nm) => some nm.name_from_utf16_be

/-- A record the family-name scan stops at: name ID Typographic Family and
the is_unicode test passes. -/
def isResolvableTF (r : Name) : Bool :=
  decide (r.name_id = name_id.TYPOGRAPHIC_FAMILY) && decide (r.is_unicode = some true)

/-- A record the family-name scan keeps as fallback candidate: name ID
Family and the is_unicode test passes. -/
def isResolvableFamily (r : Name) : Bool :=
  decide (r.name_id = name_id.FAMILY) && decide (r.is_unicode = some true)

/-- A record PostScript-name resolution selects: name ID PostScript Name and
the is_unicode test passes. -/
def isResolvablePS (r : Name) : Bool :=
  decide (r.name_id = name_id.POST_SCRIPT_NAME) && decide (r.is_unicode = some true)

/-- The candidate index the family-name scan computes, on inputs where no
tested record makes the is_unicode unwrap panic. -/
def famCandidate : List Name → Nat → Option Nat → Option Nat
  | [], _, idx => idx
  | r :: rest, i, idx =>
    if isResolvableTF r then some i
    else if isResolvableFamily r then famCandidate rest (i + 1) (some i)
    else famCandidate rest (i + 1) idx

/-- The C1 failing input: a name record whose raw platform ID is 5, outside
the recognized range 0..=4. -/
def panicRecord : Name :=
  ⟨NameRecord.new [0, 5, 0, 1, 0, 0, 0, 6, 0, 0, 0, 0], []⟩

/-- C2 counterexample font: format 0, three records: a Typographic Family
record with unrecognized platform ID 5, then a Unicode-resolvable Family
record decoding to Foo, then a Unicode-resolvable Typographic Family record
decoding to Bar. -/
def fontC2 : Font :=
  ⟨some [0, 0, 0, 3, 0, 0,
         0, 5, 0, 0, 0, 0, 0, 16, 0, 0, 0, 0,
         0, 3, 0, 1, 0, 0, 0, 1, 0, 0, 0, 6,
         0, 3, 0, 1, 0, 0, 0, 16, 0, 6, 0, 6,
         0, 70, 0, 111, 0, 111, 0, 66, 0, 97, 0, 114]⟩

/-- C2 witness font: format 0, a Unicode-resolvable Family record decoding
to Foo followed by a Unicode-resolvable Typographic Family record decoding
to Bar. -/
def fontW : Font :=
  ⟨some [0, 0, 0, 2, 0, 0,
         0, 3, 0, 1, 0, 0, 0, 1, 0, 0, 0, 6,
         0, 3, 0, 1, 0, 0, 0, 16, 0, 6, 0, 6,
         0, 70, 0, 111, 0, 111, 0, 66, 0, 97, 0, 114]⟩

/-- The Typographic Family record of fontW as the iterator yields it. -/
def recW : Name :=
  ⟨NameRecord.new [0, 3, 0, 1, 0, 0, 0, 16, 0, 6, 0, 6],
   [0, 70, 0, 111, 0, 111, 0, 66, 0, 97, 0, 114]⟩

/-- C7 counterexample font: format 0, a PostScript-name record with
unrecognized platform ID 5 followed by a Unicode-resolvable PostScript-name
record decoding to X. -/
def fontC7 : Font :=
  ⟨some [0, 0, 0, 2, 0, 0,
         0, 5, 0, 0, 0, 0, 0, 6, 0, 0, 0, 0,
         0, 0, 0, 0, 0, 0, 0, 6, 0, 0, 0, 2,
         0, 88]⟩

/-- C7 witness font: format 0, a Macintosh PostScript-name record (not
Unicode-resolvable) followed by a Unicode PostScript-name record decoding
to X. -/
def fontPW : Font :=
  ⟨some [0, 0, 0, 2, 0, 0,
         0, 1, 0, 0, 0, 0, 0, 6, 0, 0, 0, 2,
         0, 0, 0, 3, 0, 0, 0, 6, 0, 0, 0, 2,
         0, 88]⟩

/-- The Unicode PostScript-name record of fontPW as the iterator yields it. -/
def recPW : Name :=
  ⟨NameRecord.new [0, 0, 0, 3, 0, 0, 0, 6, 0, 0, 0, 2], [0, 88]⟩

/-! ## Helper lemmas -/

theorem readU16At_lt (d : List Nat) (i : Nat) : readU16At d i < 65536 := by
  unfold readU16At be16
  omega

theorem read_u16_of_le {d : List Nat} {i : Nat} (h : i + 2 ≤ d.length) :
    Stream.read_u16 ⟨d, i⟩ = some (readU16At d i, ⟨d, i + 2⟩) := by
  unfold Stream.read_u16
  rw [if_pos h]

theorem read_u16_lt {s : Stream} {x : Nat} {s2 : Stream}
    (h : s.read_u16 = some (x, s2)) : x < 65536 := by
  unfold Stream.read_u16 at h
  split at h
  · cases h
    exact readU16At_lt _ _
  · cases h

theorem read_bytes_of_le {d : List Nat} {i n : Nat} (h : i + n ≤ d.length) :
    Stream.read_bytes ⟨d, i⟩ n = some ((d.drop i).take n, ⟨d, i + n⟩) := by
  unfold Stream.read_bytes
  rw [if_pos h]

theorem read_bytes_of_gt {d : List Nat} {i n : Nat} (h : d.length < i + n) :
    Stream.read_bytes ⟨d, i⟩ n = none := by
  unfold Stream.read_bytes
  rw [if_neg (show ¬ i + n ≤ d.length by omega)]

theorem read_bytes_length {s : Stream} {n : Nat} {bs : List Nat} {s2 : Stream}
    (h : s.read_bytes n = some (bs, s2)) : bs.length ≤ n := by
  unfold Stream.read_bytes at h
  split at h
  · cases h
    exact List.length_take_le _ _
  · cases h

theorem tail_of_le {d : List Nat} {i : Nat} (h : i ≤ d.length) :
    Stream.tail ⟨d, i⟩ = some (d.drop i) := by
  unfold Stream.tail
  rw [if_pos h]

theorem total_new {ns st : List Nat} (h : ns.length ≤ NameRecord.SIZE * 65535) :
    (Names.new ns st).total = ns.length / NameRecord.SIZE := by
  show ns.length / NameRecord.SIZE % 65536 = ns.length / NameRecord.SIZE
  unfold NameRecord.SIZE at h ⊢
  exact Nat.mod_eq_of_lt (by omega)

theorem names_eq_empty_of_error {f : Font} {e : Error} (h : f._names = Except.error e) :
    f.names = ⟨[], [], 0, 0⟩ := by
  unfold Font.names
  rw [h]

/-- Every successful parse yields a Names built by Names.new whose record
region is at most 12 * 65535 bytes long (count is a u16 and the region is
sliced out with exactly SIZE * count bytes requested). -/
theorem _names_ok_shape (f : Font) (v : Names) (h : f._names = Except.ok v) :
    ∃ ns st, v = Names.new ns st ∧ ns.length ≤ NameRecord.SIZE * 65535 := by
  unfold Font._names at h
  split at h
  · cases h
  next data =>
    split at h
    · cases h
    next format s1 hf =>
      split at h
      · cases h
      next count s2 hc =>
        have hcount : count < 65536 := read_u16_lt hc
        split at h
        · -- format 0
          split at h
          · cases h
          next names s4 hr =>
            have hlen : names.length ≤ NameRecord.SIZE * count := read_bytes_length hr
            split at h
            · cases h
            next storage _ =>
              cases h
              refine ⟨names, storage, rfl, ?_⟩
              unfold NameRecord.SIZE at hlen ⊢
              omega
        · split at h
          · -- format 1
            split at h
            · cases h
            next ltc s4 hl =>
              split at h
              · cases h
              next len hm =>
                split at h
                · cases h
                next names s6 hr =>
                  have hlen : names.length ≤ NameRecord.SIZE * count := read_bytes_length hr
                  split at h
                  · cases h
                  next storage _ =>
                    cases h
                    refine ⟨names, storage, rfl, ?_⟩
                    unfold NameRecord.SIZE at hlen ⊢
                    omega
          · cases h

theorem names_index_zero (f : Font) : (f.names).index = 0 := by
  unfold Font.names
  split
  next v h =>
    obtain ⟨ns, st, rfl, -⟩ := _names_ok_shape f v h
    rfl
  · rfl

theorem nth_none_of_le {it : Names} {i : Nat}
    (hi : it.names.length / NameRecord.SIZE ≤ i) : (it.nth i).1 = none := by
  unfold Names.nth
  split
  next hcond =>
    exfalso
    unfold NameRecord.SIZE at hcond hi
    omega
  · rfl

theorem nth_fst_congr {it it2 : Names} (n : Nat)
    (h1 : it2.names = it.names) (h2 : it2.storage = it.storage) :
    (it2.nth n).1 = (it.nth n).1 := by
  unfold Names.nth
  rw [h1, h2]
  split
  · rfl
  · rfl

theorem nth_snd (it : Names) (n : Nat) : (it.nth n).2 = it := by
  unfold Names.nth
  split
  · rfl
  · rfl

/-- A record the iteration yields at position k is the record nth returns at
the absolute index (starting index + k). -/
theorem toListAux_get?_some :
    ∀ (fuel : Nat) (it : Names) (k : Nat) (r : Name),
      (Names.toListAux fuel it).get? k = some r → (it.nth (it.index + k)).1 = some r
  | 0, _, _, _, h => by cases h
  | fuel + 1, it, k, r, h => by
    unfold Names.toListAux at h
    split at h
    next heq =>
      simp at h
    next n it2 heq =>
      unfold Names.next at heq
      split at heq
      next hlt =>
        have hn : (Names.nth ⟨it.names, it.storage, it.index + 1, it.total⟩ it.index).1
            = some n := by rw [heq]
        have hit2 : it2 = ⟨it.names, it.storage, it.index + 1, it.total⟩ := by
          have hsnd := nth_snd ⟨it.names, it.storage, it.index + 1, it.total⟩ it.index
          rw [heq] at hsnd
          exact hsnd
        match k with
        | 0 =>
          rw [List.get?_cons_zero] at h
          cases h
          rw [Nat.add_zero]
          exact (@nth_fst_congr it ⟨it.names, it.storage, it.index + 1, it.total⟩
            it.index rfl rfl).symm.trans hn
        | k + 1 =>
          rw [List.get?_cons_succ] at h
          have ih := toListAux_get?_some fuel it2 k r h
          rw [hit2] at ih
          have ih2 : (Names.nth ⟨it.names, it.storage, it.index + 1, it.total⟩
              (it.index + 1 + k)).1 = some r := ih
          rw [show it.index + (k + 1) = it.index + 1 + k by omega]
          exact (@nth_fst_congr it ⟨it.names, it.storage, it.index + 1, it.total⟩
            (it.index + 1 + k) rfl rfl).symm.trans ih2
      next =>
        simp at heq

theorem toList_get?_some {it : Names} {k : Nat} {r : Name} (h0 : it.index = 0)
    (h : it.toList.get? k = some r) : (it.nth k).1 = some r := by
  have := toListAux_get?_some (it.total - it.index) it k r h
  rwa [h0, Nat.zero_add] at this

/-! ## Claim theorems -/

/-- C1: the claim says the text-decoding path never panics and a record with
an unrecognized raw platform ID simply decodes to none.  The code refutes
this: Name::is_unicode calls self.platform_id().unwrap(), and for raw
platform ID 5 PlatformId::from_u16 yields None, so the unwrap panics
(modelled as the outer none of is_unicode and name_utf8). -/
theorem unwrap_panic_on_unknown_platform :
    panicRecord.data.platform_id = 5
    ∧ PlatformId.from_u16 5 = none
    ∧ panicRecord.is_unicode = none
    ∧ panicRecord.name_utf8 = none :=
  ⟨rfl, rfl, rfl, rfl⟩

/-- C3: Name::name returns exactly storage[offset .. offset+length] when the
range lies inside the storage region and the empty slice otherwise; the
result is never a truncated-but-nonempty slice, and it never reads outside
the storage region (it is a sublist of it). -/
theorem name_slice_safe (nm : Name) :
    (nm.data.offset + nm.data.length ≤ nm.strings.length →
      nm.name = (nm.strings.drop nm.data.offset).take nm.data.length
      ∧ nm.name.length = nm.data.length)
    ∧ (nm.strings.length < nm.data.offset + nm.data.length → nm.name = [])
    ∧ nm.name.Sublist nm.strings
    ∧ (nm.name.length = nm.data.length ∨ nm.name = []) := by
  refine ⟨?_, ?_, ?_, ?_⟩
  · intro h
    unfold Name.name
    rw [if_pos h]
    refine ⟨rfl, ?_⟩
    rw [List.length_take, List.length_drop]
    omega
  · intro h
    unfold Name.name
    rw [if_neg (by omega)]
  · unfold Name.name
    split
    · exact (List.take_sublist _ _).trans (List.drop_sublist _ _)
    · exact List.nil_sublist _
  · unfold Name.name
    split
    next h =>
      left
      rw [List.length_take, List.length_drop]
      omega
    · right
      rfl

/-- C6: for every font, the record count of the Names view the public
accessor builds equals the record-region length divided by 12 (integer
division, trailing partial record ignored), and nth at or beyond that count
returns none. -/
theorem record_count_consistency (f : Font) :
    (f.names).total = (f.names).names.length / NameRecord.SIZE
    ∧ ∀ i, (f.names).names.length / NameRecord.SIZE ≤ i → ((f.names).nth i).1 = none := by
  constructor
  · unfold Font.names
    split
    next v h =>
      obtain ⟨ns, st, rfl, hb⟩ := _names_ok_shape f v h
      exact total_new hb
    · rfl
  · intro i hi
    exact nth_none_of_le hi

/-- C8: every internal failure of Font::_names is caught by the public
accessor Font::names and replaced by the empty iterator, which has zero
records; a successful parse is passed through unchanged.  No error value
reaches the caller. -/
theorem names_catches_all_errors (f : Font) :
    (∀ e, f._names = Except.error e →
      f.names = ⟨[], [], 0, 0⟩ ∧ (f.names).toList = [] ∧ (f.names).total = 0)
    ∧ (∀ v, f._names = Except.ok v → f.names = v) := by
  constructor
  · intro e h
    have hn : f.names = ⟨[], [], 0, 0⟩ := by
      unfold Font.names
      rw [h]
    exact ⟨hn, by rw [hn]; rfl, by rw [hn]⟩
  · intro v h
    unfold Font.names
    rw [h]

set_option maxRecDepth 2000 in
/-- C4: a format-1 name table whose 16-bit language-tag count, multiplied by
4, overflows the checked u16 multiplication (count at least 16384) fails
table construction with NotATrueType, and the public accessor turns the
failure into the empty iterator instead of wrapping the multiplication. -/
theorem lang_tag_overflow_fails (cnt c : Nat) (rest : List Nat)
    (hc : c < 65536) (hov : 16384 ≤ c) :
    Font._names ⟨some (0 :: 1 :: cnt / 256 :: cnt % 256 :: 0 :: 0 :: c / 256 :: c % 256 :: rest)⟩
      = Except.error Error.NotATrueType
    ∧ Font.names ⟨some (0 :: 1 :: cnt / 256 :: cnt % 256 :: 0 :: 0 :: c / 256 :: c % 256 :: rest)⟩
      = ⟨[], [], 0, 0⟩ := by
  have e1 : (Stream.new (0 :: 1 :: cnt / 256 :: cnt % 256 :: 0 :: 0 :: c / 256 :: c % 256 :: rest)).read_u16
      = some (1, ⟨0 :: 1 :: cnt / 256 :: cnt % 256 :: 0 :: 0 :: c / 256 :: c % 256 :: rest, 2⟩) := by
    unfold Stream.new
    rw [read_u16_of_le (by simp only [List.length_cons]; omega)]
    rfl
  have e2 : (Stream.read_u16 ⟨0 :: 1 :: cnt / 256 :: cnt % 256 :: 0 :: 0 :: c / 256 :: c % 256 :: rest, 2⟩)
      = some (readU16At (0 :: 1 :: cnt / 256 :: cnt % 256 :: 0 :: 0 :: c / 256 :: c % 256 :: rest) 2,
          ⟨0 :: 1 :: cnt / 256 :: cnt % 256 :: 0 :: 0 :: c / 256 :: c % 256 :: rest, 4⟩) := by
    rw [read_u16_of_le (by simp only [List.length_cons]; omega)]
  have hval : readU16At (0 :: 1 :: cnt / 256 :: cnt % 256 :: 0 :: 0 :: c / 256 :: c % 256 :: rest) 6
      = c := by
    have h0 : readU16At (0 :: 1 :: cnt / 256 :: cnt % 256 :: 0 :: 0 :: c / 256 :: c % 256 :: rest) 6
        = be16 (c / 256) (c % 256) := rfl
    rw [h0]
    unfold be16
    omega
  have e3 : (Stream.read_u16 ⟨0 :: 1 :: cnt / 256 :: cnt % 256 :: 0 :: 0 :: c / 256 :: c % 256 :: rest, 6⟩)
      = some (c, ⟨0 :: 1 :: cnt / 256 :: cnt % 256 :: 0 :: 0 :: c / 256 :: c % 256 :: rest, 8⟩) := by
    rw [read_u16_of_le (by simp only [List.length_cons]; omega), hval]
  have e4 : checkedMulU16 c LANG_TAG_RECORD_SIZE = none := by
    unfold checkedMulU16 LANG_TAG_RECORD_SIZE
    rw [if_neg (by omega)]
  have herr : Font._names
      ⟨some (0 :: 1 :: cnt / 256 :: cnt % 256 :: 0 :: 0 :: c / 256 :: c % 256 :: rest)⟩
      = Except.error Error.NotATrueType := by
    simp [Font._names, e1, e2, Stream.skip_u16, e3, e4]
  exact ⟨herr, names_eq_empty_of_error herr⟩

/-- C4 witness: language-tag count 16384 on an otherwise empty format-1
header. -/
theorem lang_tag_overflow_witness :
    Font._names ⟨some [0, 1, 0, 0, 0, 0, 64, 0]⟩ = Except.error Error.NotATrueType
    ∧ Font.names ⟨some [0, 1, 0, 0, 0, 0, 64, 0]⟩ = ⟨[], [], 0, 0⟩ :=
  lang_tag_overflow_fails 0 16384 [] (by decide) (by decide)

set_option maxRecDepth 2000 in
/-- C5: name-table format dispatch.  Format 0 takes the record region right
after the 6-byte header, consuming no language-tag bytes; format 1 with
language-tag count c skips exactly c*4 bytes after its 8-byte header before
the record region; any format other than 0 and 1 makes the public accessor
return the empty iterator. -/
theorem name_table_format_dispatch (cnt c : Nat) (rest : List Nat)
    (hcnt : cnt < 65536) (hc : c < 16384) :
    (Font._names ⟨some (0 :: 0 :: cnt / 256 :: cnt % 256 :: 0 :: 0 :: rest)⟩
      = if NameRecord.SIZE * cnt ≤ rest.length
        then Except.ok (Names.new (rest.take (NameRecord.SIZE * cnt))
            (rest.drop (NameRecord.SIZE * cnt)))
        else Except.error Error.ReadOutOfBounds)
    ∧ (Font._names ⟨some (0 :: 1 :: cnt / 256 :: cnt % 256 :: 0 :: 0 :: c / 256 :: c % 256 :: rest)⟩
      = if c * 4 + NameRecord.SIZE * cnt ≤ rest.length
        then Except.ok (Names.new ((rest.drop (c * 4)).take (NameRecord.SIZE * cnt))
            ((rest.drop (c * 4)).drop (NameRecord.SIZE * cnt)))
        else Except.error Error.ReadOutOfBounds)
    ∧ (∀ g data2, 2 ≤ g → g < 65536 →
        Font.names ⟨some (g / 256 :: g % 256 :: data2)⟩ = ⟨[], [], 0, 0⟩) := by
  refine ⟨?_, ?_, ?_⟩
  · -- format 0
    have e1 : (Stream.new (0 :: 0 :: cnt / 256 :: cnt % 256 :: 0 :: 0 :: rest)).read_u16
        = some (0, ⟨0 :: 0 :: cnt / 256 :: cnt % 256 :: 0 :: 0 :: rest, 2⟩) := by
      unfold Stream.new
      rw [read_u16_of_le (by simp only [List.length_cons]; omega)]
      rfl
    have hval : readU16At (0 :: 0 :: cnt / 256 :: cnt % 256 :: 0 :: 0 :: rest) 2 = cnt := by
      have h0 : readU16At (0 :: 0 :: cnt / 256 :: cnt % 256 :: 0 :: 0 :: rest) 2
          = be16 (cnt / 256) (cnt % 256) := rfl
      rw [h0]
      unfold be16
      omega
    have e2 : (Stream.read_u16 ⟨0 :: 0 :: cnt / 256 :: cnt % 256 :: 0 :: 0 :: rest, 2⟩)
        = some (cnt, ⟨0 :: 0 :: cnt / 256 :: cnt % 256 :: 0 :: 0 :: rest, 4⟩) := by
      rw [read_u16_of_le (by simp only [List.length_cons]; omega), hval]
    by_cases hle : NameRecord.SIZE * cnt ≤ rest.length
    · have e3 : (Stream.read_bytes ⟨0 :: 0 :: cnt / 256 :: cnt % 256 :: 0 :: 0 :: rest, 6⟩
          (NameRecord.SIZE * cnt))
          = some (rest.take (NameRecord.SIZE * cnt),
              ⟨0 :: 0 :: cnt / 256 :: cnt % 256 :: 0 :: 0 :: rest, 6 + NameRecord.SIZE * cnt⟩) := by
        rw [read_bytes_of_le (by simp only [List.length_cons]; omega)]
        rfl
      have e4 : (Stream.tail ⟨0 :: 0 :: cnt / 256 :: cnt % 256 :: 0 :: 0 :: rest,
          6 + NameRecord.SIZE * cnt⟩)
          = some (rest.drop (NameRecord.SIZE * cnt)) := by
        rw [tail_of_le (by simp only [List.length_cons]; omega)]
        congr 1
        rw [← List.drop_drop]
        rfl
      rw [if_pos hle]
      simp [Font._names, e1, e2, Stream.skip_u16, e3, e4]
    · have e3 : (Stream.read_bytes ⟨0 :: 0 :: cnt / 256 :: cnt % 256 :: 0 :: 0 :: rest, 6⟩
          (NameRecord.SIZE * cnt)) = none :=
        read_bytes_of_gt (by simp only [List.length_cons]; omega)
      rw [if_neg hle]
      simp [Font._names, e1, e2, Stream.skip_u16, e3]
  · -- format 1
    have e1 : (Stream.new (0 :: 1 :: cnt / 256 :: cnt % 256 :: 0 :: 0 :: c / 256 :: c % 256 :: rest)).read_u16
        = some (1, ⟨0 :: 1 :: cnt / 256 :: cnt % 256 :: 0 :: 0 :: c / 256 :: c % 256 :: rest, 2⟩) := by
      unfold Stream.new
      rw [read_u16_of_le (by simp only [List.length_cons]; omega)]
      rfl
    have hval : readU16At (0 :: 1 :: cnt / 256 :: cnt % 256 :: 0 :: 0 :: c / 256 :: c % 256 :: rest) 2
        = cnt := by
      have h0 : readU16At (0 :: 1 :: cnt / 256 :: cnt % 256 :: 0 :: 0 :: c / 256 :: c % 256 :: rest) 2
          = be16 (cnt / 256) (cnt % 256) := rfl
      rw [h0]
      unfold be16
      omega
    have e2 : (Stream.read_u16 ⟨0 :: 1 :: cnt / 256 :: cnt % 256 :: 0 :: 0 :: c / 256 :: c % 256 :: rest, 2⟩)
        = some (cnt, ⟨0 :: 1 :: cnt / 256 :: cnt % 256 :: 0 :: 0 :: c / 256 :: c % 256 :: rest, 4⟩) := by
      rw [read_u16_of_le (by simp only [List.length_cons]; omega), hval]
    have hval6 : readU16At (0 :: 1 :: cnt / 256 :: cnt % 256 :: 0 :: 0 :: c / 256 :: c % 256 :: rest) 6
        = c := by
      have h0 : readU16At (0 :: 1 :: cnt / 256 :: cnt % 256 :: 0 :: 0 :: c / 256 :: c % 256 :: rest) 6
          = be16 (c / 256) (c % 256) := rfl
      rw [h0]
      unfold be16
      omega
    have e3 : (Stream.read_u16 ⟨0 :: 1 :: cnt / 256 :: cnt % 256 :: 0 :: 0 :: c / 256 :: c % 256 :: rest, 6⟩)
        = some (c, ⟨0 :: 1 :: cnt / 256 :: cnt % 256 :: 0 :: 0 :: c / 256 :: c % 256 :: rest, 8⟩) := by
      rw [read_u16_of_le (by simp only [List.length_cons]; omega), hval6]
    have e4 : checkedMulU16 c LANG_TAG_RECORD_SIZE = some (c * 4) := by
      unfold checkedMulU16 LANG_TAG_RECORD_SIZE
      rw [if_pos (by omega)]
    by_cases hle : c * 4 + NameRecord.SIZE * cnt ≤ rest.length
    · have hdrop : List.drop (8 + c * 4)
          (0 :: 1 :: cnt / 256 :: cnt % 256 :: 0 :: 0 :: c / 256 :: c % 256 :: rest)
          = List.drop (c * 4) rest := by
        rw [← List.drop_drop]
        rfl
      have e5 : (Stream.read_bytes ⟨0 :: 1 :: cnt / 256 :: cnt % 256 :: 0 :: 0 :: c / 256 :: c % 256 :: rest,
          8 + c * 4⟩ (NameRecord.SIZE * cnt))
          = some ((rest.drop (c * 4)).take (NameRecord.SIZE * cnt),
              ⟨0 :: 1 :: cnt / 256 :: cnt % 256 :: 0 :: 0 :: c / 256 :: c % 256 :: rest,
               8 + c * 4 + NameRecord.SIZE * cnt⟩) := by
        rw [read_bytes_of_le (by simp only [List.length_cons]; omega), hdrop]
      have hdrop2 : List.drop (8 + c * 4 + NameRecord.SIZE * cnt)
          (0 :: 1 :: cnt / 256 :: cnt % 256 :: 0 :: 0 :: c / 256 :: c % 256 :: rest)
          = (rest.drop (c * 4)).drop (NameRecord.SIZE * cnt) := by
        rw [show 8 + c * 4 + NameRecord.SIZE * cnt = 8 + (c * 4 + NameRecord.SIZE * cnt) by omega,
          ← List.drop_drop, ← List.drop_drop]
        rfl
      have e6 : (Stream.tail ⟨0 :: 1 :: cnt / 256 :: cnt % 256 :: 0 :: 0 :: c / 256 :: c % 256 :: rest,
          8 + c * 4 + NameRecord.SIZE * cnt⟩)
          = some ((rest.drop (c * 4)).drop (NameRecord.SIZE * cnt)) := by
        rw [tail_of_le (by simp only [List.length_cons]; omega), hdrop2]
      rw [if_pos hle]
      simp [Font._names, e1, e2, Stream.skip_u16, Stream.advance, e3, e4, e5, e6]
    · have e5 : (Stream.read_bytes ⟨0 :: 1 :: cnt / 256 :: cnt % 256 :: 0 :: 0 :: c / 256 :: c % 256 :: rest,
          8 + c * 4⟩ (NameRecord.SIZE * cnt)) = none :=
        read_bytes_of_gt (by simp only [List.length_cons]; omega)
      rw [if_neg hle]
      simp [Font._names, e1, e2, Stream.skip_u16, Stream.advance, e3, e4, e5]
  · -- unrecognized formats
    intro g data2 hg2 hg
    have hval : readU16At (g / 256 :: g % 256 :: data2) 0 = g := by
      have h0 : readU16At (g / 256 :: g % 256 :: data2) 0 = be16 (g / 256) (g % 256) := rfl
      rw [h0]
      unfold be16
      omega
    have e1 : (Stream.new (g / 256 :: g % 256 :: data2)).read_u16
        = some (g, ⟨g / 256 :: g % 256 :: data2, 2⟩) := by
      unfold Stream.new
      rw [read_u16_of_le (by simp only [List.length_cons]; omega), hval]
    by_cases hlen : 2 ≤ data2.length
    · have e2 : (Stream.read_u16 ⟨g / 256 :: g % 256 :: data2, 2⟩)
          = some (readU16At (g / 256 :: g % 256 :: data2) 2, ⟨g / 256 :: g % 256 :: data2, 4⟩) :=
        read_u16_of_le (by simp only [List.length_cons]; omega)
      have herr : Font._names ⟨some (g / 256 :: g % 256 :: data2)⟩
          = Except.error Error.NotATrueType := by
        simp [Font._names, e1, e2, Stream.skip_u16]
        rw [if_neg (by omega), if_neg (by omega)]
      exact names_eq_empty_of_error herr
    · have e2 : (Stream.read_u16 ⟨g / 256 :: g % 256 :: data2, 2⟩) = none := by
        unfold Stream.read_u16
        rw [if_neg (show ¬ 2 + 2 ≤ (g / 256 :: g % 256 :: data2).length by
          simp only [List.length_cons]; omega)]
      have herr : Font._names ⟨some (g / 256 :: g % 256 :: data2)⟩
          = Except.error Error.ReadOutOfBounds := by
        simp [Font._names, e1, e2]
      exact names_eq_empty_of_error herr

/-- C5 witness: an empty format-0 table parses to the empty record region,
and format value 2 yields the empty iterator. -/
theorem name_table_format_dispatch_witness :
    Font._names ⟨some [0, 0, 0, 0, 0, 0]⟩ = Except.ok ⟨[], [], 0, 0⟩
    ∧ Font.names ⟨some [0, 2]⟩ = ⟨[], [], 0, 0⟩ := by
  have h := name_table_format_dispatch 0 0 [] (by decide) (by decide)
  refine ⟨?_, h.2.2 2 [] (by decide) (by decide)⟩
  have h1 := h.1
  simpa [Names.new, NameRecord.SIZE] using h1

theorem collectU16BE_lt : ∀ (bs : List Nat), ∀ u ∈ collectU16BE bs, u < 65536
  | [] => by simp [collectU16BE]
  | [b] => by simp [collectU16BE]
  | b0 :: b1 :: rest => by
    simp only [collectU16BE, List.mem_cons]
    intro u hu
    rcases hu with rfl | hu
    · unfold be16
      omega
    · exact collectU16BE_lt rest u hu

theorem getD_cons2 (x0 x1 : Nat) (l : List Nat) (n : Nat) :
    (x0 :: x1 :: l).getD (n + 2) 0 = l.getD n 0 := by
  rw [show n + 2 = n + 1 + 1 by omega, List.getD_cons_succ, List.getD_cons_succ]

set_option maxRecDepth 2000 in
theorem collectU16BE_map : ∀ (bs : List Nat),
    collectU16BE bs = (List.range (bs.length / 2)).map
      (fun i => be16 (bs.getD (2 * i) 0) (bs.getD (2 * i + 1) 0))
  | [] => by simp [collectU16BE]
  | [b] => by simp [collectU16BE]
  | b0 :: b1 :: rest => by
    have ih := collectU16BE_map rest
    simp only [collectU16BE, List.length_cons]
    rw [show (rest.length + 1 + 1) / 2 = rest.length / 2 + 1 by omega,
      List.range_succ_eq_map, List.map_cons]
    congr 1
    rw [List.map_map, ih]
    apply List.map_congr_left
    intro a _
    simp only [Function.comp_apply]
    have h1 : 2 * Nat.succ a = 2 * a + 2 := by omega
    rw [h1, show 2 * a + 2 + 1 = 2 * a + 1 + 2 by omega, getD_cons2, getD_cons2]

theorem utf16Decode_sound : ∀ (us cs : List Nat), (∀ u ∈ us, u < 65536) →
    utf16Decode us = some cs →
    (∀ c ∈ cs, isScalarValue c = true) ∧ utf16Encode cs = us
  | [], cs, _, h => by
    simp only [utf16Decode, Option.some_inj] at h
    subst h
    simp [utf16Encode]
  | [u], cs, hb, h => by
    simp only [utf16Decode] at h
    split at h
    next hcond =>
      cases h
      simp only [Bool.or_eq_true, decide_eq_true_eq] at hcond
      have hu : u < 65536 := hb u (by simp)
      constructor
      · intro c hc
        rcases List.mem_singleton.mp hc with rfl
        simp only [isScalarValue, Bool.or_eq_true, Bool.and_eq_true, decide_eq_true_eq]
        omega
      · unfold utf16Encode utf16Encode utf16EncodeChar
        rw [if_pos hu]
        rfl
    next => cases h
  | u :: v :: rest, cs, hb, h => by
    simp only [utf16Decode] at h
    split at h
    next hcond =>
      rw [Option.map_eq_some'] at h
      obtain ⟨cs2, hdec, hcs⟩ := h
      subst hcs
      simp only [Bool.or_eq_true, decide_eq_true_eq] at hcond
      have ih := utf16Decode_sound (v :: rest) cs2
        (fun x hx => hb x (List.mem_cons_of_mem _ hx)) hdec
      have hu : u < 65536 := hb u (by simp)
      constructor
      · intro c hc
        rcases List.mem_cons.mp hc with rfl | hc
        · simp only [isScalarValue, Bool.or_eq_true, Bool.and_eq_true, decide_eq_true_eq]
          omega
        · exact ih.1 c hc
      · show utf16EncodeChar u ++ utf16Encode cs2 = u :: v :: rest
        rw [ih.2]
        unfold utf16EncodeChar
        rw [if_pos hu]
        rfl
    next hcond =>
      simp only [Bool.or_eq_true, decide_eq_true_eq, not_or, Nat.not_lt, Nat.not_le] at hcond
      split at h
      next hcond2 =>
        split at h
        next hsur =>
          simp only [Bool.and_eq_true, decide_eq_true_eq] at hsur
          rw [Option.map_eq_some'] at h
          obtain ⟨cs2, hdec, hcs⟩ := h
          subst hcs
          have ih := utf16Decode_sound rest cs2
            (fun x hx => hb x (List.mem_cons_of_mem _ (List.mem_cons_of_mem _ hx))) hdec
          constructor
          · intro c hc
            cases List.mem_cons.mp hc with
            | inl hceq =>
              rw [hceq]
              simp only [isScalarValue, Bool.or_eq_true, Bool.and_eq_true, decide_eq_true_eq]
              omega
            | inr hc2 => exact ih.1 c hc2
          · show utf16EncodeChar (0x10000 + (u - 0xD800) * 0x400 + (v - 0xDC00)) ++ utf16Encode cs2
                = u :: v :: rest
            rw [ih.2]
            unfold utf16EncodeChar
            rw [if_neg (by omega)]
            have h1 : 0xD800 + ((0x10000 + (u - 0xD800) * 0x400 + (v - 0xDC00)) - 0x10000) / 0x400
                = u := by omega
            have h2 : 0xDC00 + ((0x10000 + (u - 0xD800) * 0x400 + (v - 0xDC00)) - 0x10000) % 0x400
                = v := by omega
            rw [List.cons_append, List.cons_append, List.nil_append, h1, h2]
        next => cases h
      next => cases h

/-- C9: decoding a name collects its bytes as big-endian 16-bit code units
(one unit per byte pair, a trailing odd byte ignored) and validates them as
UTF-16: a successful decode returns exactly the scalar values whose UTF-16
encoding is the collected unit sequence (so no replacement character is ever
substituted), and an invalid unit sequence makes the decode return none. -/
theorem utf16_decoding_faithful (nm : Name) :
    nm.name_from_utf16_be = utf16Decode (collectU16BE nm.name)
    ∧ collectU16BE nm.name = (List.range (nm.name.length / 2)).map
        (fun i => be16 (nm.name.getD (2 * i) 0) (nm.name.getD (2 * i + 1) 0))
    ∧ (∀ cs, nm.name_from_utf16_be = some cs →
        (∀ c ∈ cs, isScalarValue c = true) ∧ utf16Encode cs = collectU16BE nm.name)
    ∧ (¬ IsValidUtf16 (collectU16BE nm.name) → nm.name_from_utf16_be = none) := by
  refine ⟨rfl, collectU16BE_map _, ?_, ?_⟩
  · intro cs h
    exact utf16Decode_sound _ cs (collectU16BE_lt _) h
  · intro hnv
    show utf16Decode (collectU16BE nm.name) = none
    cases hdec : utf16Decode (collectU16BE nm.name) with
    | none => rfl
    | some cs =>
      exact absurd ⟨cs, (utf16Decode_sound _ cs (collectU16BE_lt _) hdec).1,
        (utf16Decode_sound _ cs (collectU16BE_lt _) hdec).2⟩ hnv

theorem familyNameLoop_eq : ∀ (L : List Name) (i : Nat) (idx : Option Nat),
    (∀ r ∈ L, (r.name_id = name_id.FAMILY ∨ r.name_id = name_id.TYPOGRAPHIC_FAMILY) →
      (r.is_unicode).isSome = true) →
    familyNameLoop L i idx = some (famCandidate L i idx)
  | [], _, _, _ => rfl
  | r :: rest, i, idx, hok => by
    have hrest := fun x hx => hok x (List.mem_cons_of_mem r hx)
    have ih1 := familyNameLoop_eq rest (i + 1) (some i) hrest
    have ih2 := familyNameLoop_eq rest (i + 1) idx hrest
    unfold familyNameLoop famCandidate
    by_cases h16 : r.name_id = name_id.TYPOGRAPHIC_FAMILY
    · cases hiu : r.is_unicode with
      | none =>
        exact absurd (hok r (List.mem_cons_self r rest) (Or.inr h16)) (by rw [hiu]; simp)
      | some b =>
        cases b
        · simp [isResolvableTF, isResolvableFamily, h16, hiu, ih2,
            name_id.TYPOGRAPHIC_FAMILY, name_id.FAMILY]
        · simp [isResolvableTF, h16, hiu]
    · by_cases h1 : r.name_id = name_id.FAMILY
      · cases hiu : r.is_unicode with
        | none =>
          exact absurd (hok r (List.mem_cons_self r rest) (Or.inl h1)) (by rw [hiu]; simp)
        | some b =>
          cases b
          · simp [isResolvableTF, isResolvableFamily, h16, h1, hiu, ih2,
              name_id.TYPOGRAPHIC_FAMILY, name_id.FAMILY]
          · simp [isResolvableTF, isResolvableFamily, h16, h1, hiu, ih1,
              name_id.TYPOGRAPHIC_FAMILY, name_id.FAMILY]
      · simp [isResolvableTF, isResolvableFamily, h16, h1, ih2]

theorem famCandidate_find_TF : ∀ (L : List Name) (i : Nat) (r : Name),
    L.find? isResolvableTF = some r →
    ∀ idx, ∃ k, famCandidate L i idx = some (i + k) ∧ L.get? k = some r
  | [], _, r, h, _ => by simp at h
  | x :: rest, i, r, h, idx => by
    unfold famCandidate
    by_cases hx : isResolvableTF x = true
    · rw [List.find?_cons_of_pos _ hx] at h
      cases h
      refine ⟨0, ?_, ?_⟩
      · rw [if_pos hx, Nat.add_zero]
      · rfl
    · rw [List.find?_cons_of_neg _ hx] at h
      rw [if_neg hx]
      by_cases hf : isResolvableFamily x = true
      · obtain ⟨k, hk1, hk2⟩ := famCandidate_find_TF rest (i + 1) r h (some i)
        refine ⟨k + 1, ?_, ?_⟩
        · rw [if_pos hf, hk1]
          congr 1
          omega
        · simpa using hk2
      · obtain ⟨k, hk1, hk2⟩ := famCandidate_find_TF rest (i + 1) r h idx
        refine ⟨k + 1, ?_, ?_⟩
        · rw [if_neg hf, hk1]
          congr 1
          omega
        · simpa using hk2

theorem famCandidate_none : ∀ (L : List Name) (i : Nat) (idx : Option Nat),
    L.find? isResolvableTF = none → L.reverse.find? isResolvableFamily = none →
    famCandidate L i idx = idx
  | [], _, _, _, _ => rfl
  | x :: rest, i, idx, hTF, hFam => by
    rw [List.find?_eq_none] at hTF hFam
    have hx : ¬ isResolvableTF x = true := hTF x (List.mem_cons_self x rest)
    have hxf : ¬ isResolvableFamily x = true := hFam x (by simp)
    unfold famCandidate
    rw [if_neg hx, if_neg hxf]
    apply famCandidate_none rest (i + 1) idx
    · rw [List.find?_eq_none]
      exact fun y hy => hTF y (List.mem_cons_of_mem _ hy)
    · rw [List.find?_eq_none]
      exact fun y hy => hFam y (by simp at hy ⊢; exact Or.inl hy)

theorem famCandidate_last_family : ∀ (L : List Name) (i : Nat) (r : Name),
    L.find? isResolvableTF = none → L.reverse.find? isResolvableFamily = some r →
    ∀ idx, ∃ k, famCandidate L i idx = some (i + k) ∧ L.get? k = some r
  | [], _, r, _, hFam, _ => by simp at hFam
  | x :: rest, i, r, hTF, hFam, idx => by
    have hTFx : ¬ isResolvableTF x = true := by
      rw [List.find?_eq_none] at hTF
      exact hTF x (List.mem_cons_self x rest)
    have hTFrest : rest.find? isResolvableTF = none := by
      rw [List.find?_eq_none] at hTF ⊢
      exact fun y hy => hTF y (List.mem_cons_of_mem _ hy)
    rw [List.reverse_cons, List.find?_append] at hFam
    unfold famCandidate
    rw [if_neg hTFx]
    cases hrev : rest.reverse.find? isResolvableFamily with
    | some rr =>
      rw [hrev] at hFam
      simp only [Option.or, Option.some.injEq] at hFam
      subst hFam
      by_cases hf : isResolvableFamily x = true
      · obtain ⟨k, hk1, hk2⟩ := famCandidate_last_family rest (i + 1) rr hTFrest hrev (some i)
        refine ⟨k + 1, ?_, ?_⟩
        · rw [if_pos hf, hk1]
          congr 1
          omega
        · simpa using hk2
      · obtain ⟨k, hk1, hk2⟩ := famCandidate_last_family rest (i + 1) rr hTFrest hrev idx
        refine ⟨k + 1, ?_, ?_⟩
        · rw [if_neg hf, hk1]
          congr 1
          omega
        · simpa using hk2
    | none =>
      rw [hrev] at hFam
      simp only [Option.or] at hFam
      have hxf : isResolvableFamily x = true ∧ r = x := by
        by_cases hf : isResolvableFamily x = true
        · rw [List.find?_cons_of_pos _ hf] at hFam
          cases hFam
          exact ⟨hf, rfl⟩
        · rw [List.find?_cons_of_neg _ hf] at hFam
          simp at hFam
      obtain ⟨hf, rfl⟩ := hxf
      rw [if_pos hf]
      refine ⟨0, ?_, ?_⟩
      · rw [famCandidate_none rest (i + 1) (some i) hTFrest hrev, Nat.add_zero]
      · rfl

theorem postScriptFind_eq : ∀ (L : List Name),
    (∀ r ∈ L, r.name_id = name_id.POST_SCRIPT_NAME → (r.is_unicode).isSome = true) →
    postScriptFind L = some (L.find? isResolvablePS)
  | [], _ => rfl
  | x :: rest, hok => by
    have ih := postScriptFind_eq rest (fun y hy => hok y (List.mem_cons_of_mem _ hy))
    unfold postScriptFind
    by_cases h6 : x.name_id = name_id.POST_SCRIPT_NAME
    · cases hiu : x.is_unicode with
      | none =>
        exact absurd (hok x (List.mem_cons_self x rest) h6) (by rw [hiu]; simp)
      | some b =>
        cases b
        · rw [if_pos h6]
          simp only [hiu]
          rw [List.find?_cons_of_neg _ (by simp [isResolvablePS, hiu])]
          exact ih
        · rw [if_pos h6]
          simp only [hiu]
          rw [List.find?_cons_of_pos _ (by simp [isResolvablePS, h6, hiu])]
    · rw [if_neg h6]
      rw [List.find?_cons_of_neg _ (by simp [isResolvablePS, h6])]
      exact ih

/-- C2 counterexample: fontC2's record list contains a Unicode-resolvable
Family record (index 1) and a Unicode-resolvable Typographic Family record
(index 2, decoding to Bar), yet family_name does not return the Typographic
Family string: the scan hits the platform-ID-5 record first and panics in
the is_unicode unwrap (modelled as none). -/
theorem family_name_claim_counterexample :
    ((fontC2.names).toList.map (fun r => (r.name_id, r.is_unicode)))
      = [(16, none), (1, some true), (16, some true)]
    ∧ (((fontC2.names).toList.get? 2).map (fun r => r.name_from_utf16_be))
      = some (some [66, 97, 114])
    ∧ fontC2.family_name = none :=
  ⟨rfl, rfl, rfl⟩

/-- C2 (amended): provided every record whose name ID is Family (1) or
Typographic Family (16) has a recognized platform ID (no unwrap panic), the
scan behaves exactly as claimed: the first Unicode-resolvable Typographic
Family record wins and stops the scan regardless of Family records before or
after it; with no such record the last Unicode-resolvable Family record is
the candidate; with neither the result is none. -/
theorem family_name_resolution (f : Font)
    (hok : ∀ r ∈ (f.names).toList,
        (r.name_id = name_id.FAMILY ∨ r.name_id = name_id.TYPOGRAPHIC_FAMILY) →
        (r.is_unicode).isSome = true) :
    (∀ r, (f.names).toList.find? isResolvableTF = some r →
        f.family_name = some r.name_from_utf16_be)
    ∧ ((f.names).toList.find? isResolvableTF = none →
        (∀ r, (f.names).toList.reverse.find? isResolvableFamily = some r →
            f.family_name = some r.name_from_utf16_be)
        ∧ ((f.names).toList.reverse.find? isResolvableFamily = none →
            f.family_name = some none)) := by
  have hloop := familyNameLoop_eq (f.names).toList 0 none hok
  refine ⟨?_, fun hTF => ⟨?_, ?_⟩⟩
  · intro r hr
    obtain ⟨k, hk1, hk2⟩ := famCandidate_find_TF (f.names).toList 0 r hr none
    have hnth : ((f.names).nth k).1 = some r := toList_get?_some (names_index_zero f) hk2
    unfold Font.family_name
    rw [hloop, hk1]
    simp only [Nat.zero_add]
    rw [hnth]
  · intro r hr
    obtain ⟨k, hk1, hk2⟩ := famCandidate_last_family (f.names).toList 0 r hTF hr none
    have hnth : ((f.names).nth k).1 = some r := toList_get?_some (names_index_zero f) hk2
    unfold Font.family_name
    rw [hloop, hk1]
    simp only [Nat.zero_add]
    rw [hnth]
  · intro hFam
    unfold Font.family_name
    rw [hloop, famCandidate_none (f.names).toList 0 none hTF hFam]

/-- C2 witness: on fontW (Family Foo, then Typographic Family Bar, both
Windows + BMP encoding) the resolution returns Bar. -/
theorem family_name_resolution_witness :
    Font.family_name fontW = some (some [66, 97, 114]) := by
  have h := (family_name_resolution fontW (by decide)).1 recW (by rfl)
  rw [h]
  rfl

/-- C7 counterexample: fontC7's record list contains a Unicode-resolvable
PostScript-name record (index 1, decoding to X), yet post_script_name does
not return it: the find first tests the platform-ID-5 record with name ID 6
and panics in the is_unicode unwrap (modelled as none). -/
theorem post_script_name_claim_counterexample :
    ((fontC7.names).toList.map (fun r => (r.name_id, r.is_unicode)))
      = [(6, none), (6, some true)]
    ∧ (((fontC7.names).toList.get? 1).map (fun r => r.name_from_utf16_be))
      = some (some [88])
    ∧ fontC7.post_script_name = none :=
  ⟨rfl, rfl, rfl⟩

/-- C7 (amended): provided every record with name ID 6 has a recognized
platform ID (no unwrap panic), post_script_name returns the decode of the
first Unicode-resolvable record with name ID 6 in on-disk order, and none
when no record is both (in particular records that are not
Unicode-resolvable, such as Macintosh ones, are never selected). -/
theorem post_script_name_resolution (f : Font)
    (hok : ∀ r ∈ (f.names).toList, r.name_id = name_id.POST_SCRIPT_NAME →
        (r.is_unicode).isSome = true) :
    (∀ r, (f.names).toList.find? isResolvablePS = some r →
        f.post_script_name = some r.name_from_utf16_be)
    ∧ ((f.names).toList.find? isResolvablePS = none →
        f.post_script_name = some none) := by
  have hps := postScriptFind_eq (f.names).toList hok
  constructor
  · intro r hr
    unfold Font.post_script_name
    rw [hps, hr]
  · intro hr
    unfold Font.post_script_name
    rw [hps, hr]

/-- C7 witness: on fontPW the Macintosh PostScript-name record at index 0 is
skipped and the Unicode one at index 1 (decoding to X) is returned. -/
theorem post_script_name_resolution_witness :
    Font.post_script_name fontPW = some (some [88]) := by
  have h := (post_script_name_resolution fontPW (by decide)).1 recPW (by rfl)
  rw [h]
  rfl

/-- C10: Names::nth is absolute: it leaves the iterator unchanged (so two
consecutive calls agree), depends only on the record region and the storage
(not on the consumed index), returns exactly the record at byte range
[12n, 12n+12) of the record region when that range fits and none otherwise;
and a record the iteration yields at position k (with a fresh iterator,
index 0) is exactly what nth k returns, which is what family_name's final
nth(candidate) relies on. -/
theorem nth_absolute_indexing :
    (∀ (it : Names) (n : Nat),
      (it.nth n).2 = it
      ∧ (((it.nth n).2.nth n).1 = (it.nth n).1)
      ∧ (∀ it2 : Names, it2.names = it.names → it2.storage = it.storage →
          (it2.nth n).1 = (it.nth n).1)
      ∧ (∀ r, (it.nth n).1 = some r →
          r.data = NameRecord.new ((it.names.drop (NameRecord.SIZE * n)).take NameRecord.SIZE)
          ∧ r.strings = it.storage
          ∧ NameRecord.SIZE * n + NameRecord.SIZE ≤ it.names.length)
      ∧ (it.names.length < NameRecord.SIZE * n + NameRecord.SIZE → (it.nth n).1 = none))
    ∧ (∀ (it : Names) (k : Nat) (r : Name), it.index = 0 →
        it.toList.get? k = some r → (it.nth k).1 = some r) := by
  constructor
  · intro it n
    refine ⟨nth_snd it n, by rw [nth_snd], fun it2 h1 h2 => nth_fst_congr n h1 h2, ?_, ?_⟩
    · intro r hr
      unfold Names.nth at hr
      split at hr
      next hcond =>
        have hr2 : some (Name.mk
            (NameRecord.new ((it.names.drop (NameRecord.SIZE * n)).take NameRecord.SIZE))
            it.storage) = some r := hr
        cases hr2
        exact ⟨rfl, rfl, hcond⟩
      next => cases hr
    · intro hlen
      apply nth_none_of_le
      unfold NameRecord.SIZE at hlen ⊢
      omega
  · intro it k r h0 h
    exact toList_get?_some h0 h

end Ttf
